import Mathlib

/-!
Verification of the ori storage engine (packfile object store, packfile
manager free list, and metadata refcount log) against its specification.

The C++ sources are shallowly embedded:
  * files and streams become lists of byte values (`List Nat`, each < 256
    on well-formed data); integer fields are little-endian as in the
    on-disk formats;
  * `std::map` containers become association lists with an upsert
    operation (`alSet`) and a defaulted lookup (`mapGet`);
  * machine integers (`uint32_t refcount_t`) are `Nat` with explicit
    `% 2^32` where the code can overflow;
  * fallible code (corruption, short reads that throw) returns `Option`;
  * the destructor-driven "scoped release" commits are modelled as the
    explicit function the destructor calls.
-/

/-- Little-endian encoding of a 32-bit value, as written by
`strwstream::writeInt<uint32_t>` and the raw `write(fd, &num, 4)` calls. -/
def le32 (n : Nat) : List Nat :=
  [n % 256, n / 256 % 256, n / 65536 % 256, n / 16777216 % 256]

/-- Little-endian decoding of (up to) four bytes, as performed by
`read(fd, &num, sizeof(uint32_t))` / `bytestream::readInt<uint32_t>`.
Missing bytes read as zero; whenever fewer than four bytes were available
the callers either fail or the decoded value is irrelevant. -/
def le32dec (bs : List Nat) : Nat :=
  bs.getD 0 0 + 256 * bs.getD 1 0 + 65536 * bs.getD 2 0 + 16777216 * bs.getD 3 0

/-- Little-endian encoding of a 64-bit value (the `payload_size` field of a
serialized `ObjectInfo`). -/
def le64 (n : Nat) : List Nat :=
  [n % 256, n / 256 % 256, n / 65536 % 256, n / 16777216 % 256,
   n / 4294967296 % 256, n / 1099511627776 % 256,
   n / 281474976710656 % 256, n / 72057594037927936 % 256]

/-- Little-endian decoding of (up to) eight bytes. -/
def le64dec (bs : List Nat) : Nat :=
  bs.getD 0 0 + 256 * bs.getD 1 0 + 65536 * bs.getD 2 0 + 16777216 * bs.getD 3 0
    + 4294967296 * bs.getD 4 0 + 1099511627776 * bs.getD 5 0
    + 281474976710656 * bs.getD 6 0 + 72057594037927936 * bs.getD 7 0

/-- Lookup in an association list (a `std::map` whose iteration order we
carry explicitly). -/
def alGet? {α β : Type} [DecidableEq α] : List (α × β) → α → Option β
  | [], _ => none
  | (k, v) :: rest, key => if k = key then some v else alGet? rest key

/-- Upsert into an association list: replace the value of an existing key in
place, or append a fresh key at the end (`std::map::operator[]` assignment,
up to iteration order, which no settled claim depends on). -/
def alSet {α β : Type} [DecidableEq α] : List (α × β) → α → β → List (α × β)
  | [], key, v => [(key, v)]
  | (k, w) :: rest, key, v =>
    if k = key then (key, v) :: rest else (k, w) :: alSet rest key v

/-- ObjectHash: the fixed-width content digest.  Only its byte string
matters to the storage engine. -/
structure ObjectHash where
  bytes : List Nat
deriving DecidableEq

/-- Modelled from the spec: the on-disk hash width `ObjectHash::SIZE`
(`tuneables.h` is not part of the provided sources); the spec fixes a
32-byte digest. -/
def HASH_SIZE : Nat := 32

/-- Modelled from the spec: the distinguished empty hash ("no object") is
the all-zero digest; `isEmpty` tests for it. -/
def ObjectHash.isEmpty (h : ObjectHash) : Bool :=
  h.bytes.all (fun b => b == 0)

/-- Well-formedness of a hash as stored on disk: exactly `HASH_SIZE` bytes,
each a byte value. -/
def ObjectHash.wf (h : ObjectHash) : Prop :=
  h.bytes.length = HASH_SIZE ∧ ∀ b ∈ h.bytes, b < 256

/-- The modulus of the 32-bit `refcount_t` arithmetic. -/
def W32 : Nat := 4294967296

/-- RefcountMap (`std::map<ObjectHash, refcount_t>`): association list from
hash to count; an absent key reads as count 0. -/
def mapGet (m : List (ObjectHash × Nat)) (h : ObjectHash) : Nat :=
  (alGet? m h).getD 0

/-- MetadataLog state: the byte contents of the backing file (the fd is
opened `O_APPEND`, so every write appends) and the in-memory refcount map. -/
structure MetadataLog where
  file : List Nat
  refcounts : List (ObjectHash × Nat)
deriving DecidableEq

/-- A freshly constructed `MetadataLog` over an empty file. -/
def mdInit : MetadataLog := { file := [], refcounts := [] }

/-- Serialization of one `(hash, refcount)` pair of a metadata log entry:
`ws.writeHash(hash); ws.writeInt(final_count)`. -/
def pairSer (p : ObjectHash × Nat) : List Nat :=
  p.1.bytes ++ le32 p.2

/-- Serialization of the pair block of one metadata log entry. -/
def pairsSer (ps : List (ObjectHash × Nat)) : List Nat :=
  (ps.map pairSer).flatten

/-- Serialization of one whole metadata log entry:
`u32 num` followed by `num` pairs. -/
def entrySer (ps : List (ObjectHash × Nat)) : List Nat :=
  le32 ps.length ++ pairsSer ps

/-- Serialization of a sequence of metadata log entries. -/
def entriesSer (es : List (List (ObjectHash × Nat))) : List Nat :=
  (es.map entrySer).flatten

/-- The pair-writing loop of `MetadataLog::commit`: for each `(hash, delta)`
of the transaction in iteration order, compute
`final_count = refcounts[hash] + delta` (32-bit arithmetic), store it back
into the in-memory map, and record the `(hash, final_count)` pair that is
serialized.  Returns the updated map and the written pairs. -/
def mdCommitLoop : List (ObjectHash × Nat) → List (ObjectHash × Nat) →
    List (ObjectHash × Nat) × List (ObjectHash × Nat)
  | [], m => (m, [])
  | (h, d) :: rest, m =>
    let final := (mapGet m h + d) % W32
    let r := mdCommitLoop rest (alSet m h final)
    (r.1, (h, final) :: r.2)

/-- `MetadataLog::commit`: an empty delta map writes nothing; otherwise the
entry `u32 num` plus the pair block is appended to the file and the
in-memory map is folded forward. -/
def mdCommit (st : MetadataLog) (counts : List (ObjectHash × Nat)) : MetadataLog :=
  if counts.length = 0 then st
  else
    { file := st.file ++ le32 counts.length ++ pairsSer (mdCommitLoop counts st.refcounts).2
      refcounts := (mdCommitLoop counts st.refcounts).1 }

/-- A sequence of transactions committed in order (each transaction's scoped
release invokes `commit`). -/
def mdCommits (st : MetadataLog) : List (List (ObjectHash × Nat)) → MetadataLog
  | [] => st
  | t :: ts => mdCommits (mdCommit st t) ts

/-- The entries actually persisted by a sequence of committed transactions
(empty transactions persist nothing). -/
def mdWritten (st : MetadataLog) : List (List (ObjectHash × Nat)) →
    List (List (ObjectHash × Nat))
  | [] => []
  | t :: ts =>
    (if t.length = 0 then [] else [(mdCommitLoop t st.refcounts).2])
      ++ mdWritten (mdCommit st t) ts

/-- The pair-reading loop of `MetadataLog::open` for one entry: `num`
iterations of reading a `HASH_SIZE`-byte hash and a `u32 refcount`, each
overwriting the in-memory map (`refcounts[hash] = refcount`). -/
def mdReadPairs : Nat → List Nat → List (ObjectHash × Nat) → List (ObjectHash × Nat)
  | 0, _, m => m
  | n + 1, bs, m =>
    mdReadPairs n (bs.drop 36) (alSet m ⟨bs.take 32⟩ (le32dec (bs.drop 32)))

/-- The entry-reading loop of `MetadataLog::open`.  At EOF it succeeds; a
nonempty remainder yields `num` (the count field, zero-extended on a short
read, which the subsequent bound check rejects in exactly the same cases as
the C code), then fails with corruption when
`num * (HASH_SIZE + 4) + readSoFar > fileSize` where `readSoFar` includes
the just-consumed count field, and otherwise consumes the entry's pairs. -/
def mdOpenLoop (fileSize : Nat) (bs : List Nat) (readSoFar : Nat)
    (m : List (ObjectHash × Nat)) : Option (List (ObjectHash × Nat)) :=
  match bs with
  | [] => some m
  | b :: rest =>
    let num := le32dec (b :: rest)
    if num * (HASH_SIZE + 4) + (readSoFar + 4) > fileSize then none
    else
      mdOpenLoop fileSize ((b :: rest).drop (4 + num * (HASH_SIZE + 4)))
        (readSoFar + 4 + num * (HASH_SIZE + 4))
        (mdReadPairs num ((b :: rest).drop 4) m)
termination_by bs.length
decreasing_by simp only [List.length_drop, List.length_cons]; omega

/-- `MetadataLog::open` on a file with the given byte contents, into a fresh
(empty) in-memory map: `none` models the corruption failure path. -/
def mdOpen (file : List Nat) : Option (List (ObjectHash × Nat)) :=
  mdOpenLoop file.length file 0 []

/-- `MetadataLog::getRefCount`: the in-memory count, 0 when absent. -/
def mdGetRefCount (st : MetadataLog) (h : ObjectHash) : Nat :=
  mapGet st.refcounts h

/-- `MetadataLog::rewrite` with the default argument, including the scoped
release of its transaction at the end of the call: truncate the file, seed a
transaction with the current in-memory map, clear the map, and let the
transaction's release commit the seeded deltas. -/
def mdRewrite (st : MetadataLog) : MetadataLog :=
  mdCommit { file := [], refcounts := [] } st.refcounts

/-- `MetadataLog::addRef` called without a transaction: a fresh transaction
is created inside the call, receives the single increment, and its scoped
release commits before `addRef` returns. -/
def mdAddRefNoTr (st : MetadataLog) (h : ObjectHash) : MetadataLog :=
  mdCommit st [(h, 1)]

/-- Modelled from the spec: the compressed bit of `ObjectInfo::flags`
(`ORI_FLAG_COMPRESSED`); its numeric value is not in the provided sources,
only that it is a single flag bit. -/
def ORI_FLAG_COMPRESSED : Nat := 1

/-- ObjectInfo: hash, kind, flags and payload size of an object.  The spec
fixes its serialized width at `INFO_SIZE = 48` bytes. -/
structure ObjectInfo where
  hash : ObjectHash
  kind : Nat
  flags : Nat
  payload_size : Nat
deriving DecidableEq

/-- The serialized width `ObjectInfo::SIZE` of an object info record. -/
def INFO_SIZE : Nat := 48

/-- Modelled from the spec: `ObjectInfo::toString`, the fixed 48-byte
serialization `(hash, kind, flags, payload_size)`; the claims depend only on
its width and on the hash field round-tripping. -/
def infoSer (i : ObjectInfo) : List Nat :=
  i.hash.bytes ++ le32 i.kind ++ le32 i.flags ++ le64 i.payload_size

/-- Modelled from the spec: `ObjectInfo::fromString` / `readInfo`, the
inverse of `infoSer`. -/
def infoDeser (bs : List Nat) : ObjectInfo :=
  { hash := ⟨bs.take 32⟩
    kind := le32dec (bs.drop 32)
    flags := le32dec (bs.drop 36)
    payload_size := le64dec (bs.drop 40) }

/-- `ObjectInfo::getCompressed`: tests the compressed flag bit. -/
def ObjectInfo.getCompressed (i : ObjectInfo) : Bool :=
  i.flags.testBit 0

/-- An `IndexEntry` as handed to `Index::updateEntry`:
`(info, offset, packed_size, packfile)`. -/
structure IndexEntry where
  info : ObjectInfo
  offset : Nat
  packed_size : Nat
  packfile : Nat
deriving DecidableEq

/-- The collaborating `Index`: hash to entry, with `updateEntry` an upsert
(`alSet`) and `lookup` an `alGet?`. -/
abbrev Index : Type := List (ObjectHash × IndexEntry)

/-- Packfile state: byte contents of the pack file plus the in-memory
`(packid, numObjects, fileSize)` bookkeeping of the `Packfile` object.
`fileSize` is tracked separately from the file (the code only reads it at
construction), which is what makes the stale-offset behaviour of `purge`
expressible. -/
structure Packfile where
  file : List Nat
  packid : Nat
  numObjects : Nat
  fileSize : Nat
deriving DecidableEq

/-- A pack transaction: parallel `infos` and `payloads` vectors, the staged
total size, the committed flag, and the `hash → index` membership map. -/
structure PfTransaction where
  infos : List ObjectInfo
  payloads : List (List Nat)
  totalSize : Nat
  committed : Bool
  hashToIx : List (ObjectHash × Nat)
deriving DecidableEq

/-- `Packfile::begin`: a fresh, uncommitted, empty transaction. -/
def pfBegin : PfTransaction :=
  { infos := [], payloads := [], totalSize := 0, committed := false, hashToIx := [] }

/-- The external compression collaborator of `addPayload` / `getPayload`
(`zipstream` with `COMPRESS` / `DECOMPRESS`): `admits` is the admission test
"payload.size() > ZIP_MINIMUM_SIZE and the sampled ratio is at most
COMPCHECK_RATIO", `compress` the full compressed image that `addPayload`
assembles, and `decompress size bs` the decompression stream bounded by the
declared payload size. -/
structure Codec where
  admits : List Nat → Bool
  compress : List Nat → List Nat
  decompress : Nat → List Nat → List Nat

/-- `PfTransaction::addPayload` (compression enabled): when the admission
test passes, set the compressed flag and stage the compressed bytes,
otherwise stage the raw payload; either way push the info, count the stored
size, and record the hash's position. -/
def pfAddPayload (c : Codec) (t : PfTransaction) (info : ObjectInfo)
    (payload : List Nat) : PfTransaction :=
  let doComp := c.admits payload
  let stored := if doComp then c.compress payload else payload
  let info2 := if doComp then
      { info with flags := info.flags ||| ORI_FLAG_COMPRESSED } else info
  { infos := t.infos ++ [info2]
    payloads := t.payloads ++ [stored]
    totalSize := t.totalSize + stored.length
    committed := t.committed
    hashToIx := alSet t.hashToIx info.hash t.infos.length }

/-- The per-pack header entry width `ENTRYSIZE = ObjectInfo::SIZE + 4 + 4`. -/
def ENTRYSIZE : Nat := INFO_SIZE + 4 + 4

/-- The header-serialization loop of `Packfile::commit`: for each staged
`(info, payload)` pair emit `(info, u32 packed_size, u32 absolute_offset)`
and advance the running offset; also return the recorded offsets. -/
def pfHeaderLoop : List (ObjectInfo × List Nat) → Nat → List Nat × List Nat
  | [], _ => ([], [])
  | (i, p) :: rest, off =>
    let r := pfHeaderLoop rest (off + p.length)
    (infoSer i ++ le32 p.length ++ le32 off ++ r.1, off :: r.2)

/-- The index-update loop of `Packfile::commit`: after each payload write,
`idx->updateEntry(hash, IndexEntry{info, offset, packed_size, packid})`. -/
def pfIndexLoop (packid : Nat) : List ((ObjectInfo × List Nat) × Nat) → Index → Index
  | [], idx => idx
  | ((info, p), off) :: rest, idx =>
    pfIndexLoop packid rest
      (alSet idx info.hash
        { info := info, offset := off, packed_size := p.length, packfile := packid })

/-- `Packfile::commit`: seek to end, write the `u32 num` group header block
with offsets starting at `fileSize + 4 + headers_size`, then the payloads in
order, growing `fileSize` and `numObjects` and updating the index, and mark
the transaction committed. -/
def pfCommit (pf : Packfile) (t : PfTransaction) (idx : Index) :
    Packfile × Index × PfTransaction :=
  let headers_size := t.infos.length * ENTRYSIZE
  let off0 := pf.fileSize + 4 + headers_size
  let hl := pfHeaderLoop (t.infos.zip t.payloads) off0
  let headerBytes := le32 t.infos.length ++ hl.1
  ({ file := pf.file ++ headerBytes ++ t.payloads.flatten
     packid := pf.packid
     numObjects := pf.numObjects + t.payloads.length
     fileSize := pf.fileSize + headerBytes.length + (t.payloads.map List.length).sum },
   pfIndexLoop pf.packid ((t.infos.zip t.payloads).zip hl.2) idx,
   { t with committed := true })

/-- `PfTransaction::~PfTransaction` (the scoped release): an uncommitted
transaction is committed; a committed one is left alone. -/
def pfRelease (pf : Packfile) (t : PfTransaction) (idx : Index) :
    Packfile × Index × PfTransaction :=
  if t.committed then (pf, idx, t) else pfCommit pf t idx

/-- `Packfile::getPayload`: a bounded byte stream over
`(fd, entry.offset, entry.packed_size)`, wrapped in a decompression stream
with the declared payload size when the entry's info carries the compressed
flag. -/
def pfGetPayload (c : Codec) (pf : Packfile) (e : IndexEntry) : List Nat :=
  let stored := (pf.file.drop e.offset).take e.packed_size
  if e.info.getCompressed then c.decompress e.info.payload_size stored else stored

/-- The header-reading loop of one group in `Packfile::purge`: read `num`
headers, record each stored size, mark for skipping the hashes in the purge
set and stage the others; `none` models the uncaught stream exception when
the remaining bytes cannot hold a header. -/
def pgHeaders (hset : ObjectHash → Bool) :
    Nat → List Nat → Option (List ObjectInfo × List (Nat × Bool))
  | 0, _ => some ([], [])
  | n + 1, bs =>
    if bs.length < ENTRYSIZE then none
    else
      let info := infoDeser (bs.take INFO_SIZE)
      let ssize := le32dec (bs.drop INFO_SIZE)
      match pgHeaders hset n (bs.drop ENTRYSIZE) with
      | none => none
      | some r =>
        if hset info.hash then some (r.1, (ssize, true) :: r.2)
        else some (info :: r.1, (ssize, false) :: r.2)

/-- The payload-reading loop of one group in `Packfile::purge`: read each
recorded stored size (`payload.resize(size)` keeps the length exact even on
a short read, which only happens past end of file), keeping the payloads not
marked as skipped. -/
def pgPayloads : List (Nat × Bool) → List Nat → List (List Nat)
  | [], _ => []
  | (s, skip) :: rest, bs =>
    let payload := bs.take s ++ List.replicate (s - (bs.take s).length) 0
    let r := pgPayloads rest (bs.drop s)
    if skip then r else payload :: r

/-- Total number of payload bytes declared by one group's headers. -/
def pgSizesSum : List (Nat × Bool) → Nat
  | [] => 0
  | (s, _) :: rest => s + pgSizesSum rest

/-- The group-scanning loop of `Packfile::purge`: stop at end of file or
when fewer than four bytes remain (the thrown `readInt` is caught and breaks
the loop), otherwise read `num`, the group's headers and payloads, and
accumulate the kept objects. -/
def pgScan (hset : ObjectHash → Bool) (bs : List Nat)
    (infosAcc : List ObjectInfo) (paysAcc : List (List Nat)) :
    Option (List ObjectInfo × List (List Nat)) :=
  if bs.length < 4 then some (infosAcc, paysAcc)
  else
    let num := le32dec bs
    match pgHeaders hset num (bs.drop 4) with
    | none => none
    | some r =>
      pgScan hset (bs.drop (4 + num * ENTRYSIZE + pgSizesSum r.2))
        (infosAcc ++ r.1) (paysAcc ++ pgPayloads r.2 (bs.drop (4 + num * ENTRYSIZE)))
termination_by bs.length
decreasing_by simp only [List.length_drop]; omega

/-- `Packfile::purge`: scan the pack, staging the objects whose hash is not
in the purge set into a fresh transaction; replace the backing file with the
empty temp file (note: `fileSize` and `numObjects` are not reset); then the
surviving transaction's scoped release commits the kept objects through the
normal commit path.  Returns the new pack, the updated index, and whether
the pack ended up empty. -/
def pfPurge (pf : Packfile) (hset : ObjectHash → Bool) (idx : Index) :
    Option (Packfile × Index × Bool) :=
  match pgScan hset pf.file [] [] with
  | none => none
  | some (infos, pays) =>
    let tr : PfTransaction :=
      { infos := infos, payloads := pays, totalSize := 0,
        committed := false, hashToIx := [] }
    let r := pfRelease { pf with file := [] } tr idx
    some (r.1, r.2.1, pays.length == 0)

/-- The inner while loop of `PackfileManager::_recomputeFreeList` combined
with the outer step: starting from `curr`, push every id below the current
existing id `e` onto the free list, advance `curr` past `e`, and move to the
next existing id, until `curr` reaches the largest existing id `back`. -/
def pmRecomputeLoop (existing : List Nat) (back curr ix : Nat) : List Nat :=
  if curr < back then
    let e := existing.getD ix 0
    List.range' curr (e - curr) ++ pmRecomputeLoop existing back (max curr e + 1) (ix + 1)
  else []
termination_by back - curr
decreasing_by omega

/-- `PackfileManager::_recomputeFreeList` from the ids of the `pack<n>.pak`
files found in the pack directory: sort them; an empty directory gives
`[0]`, otherwise the gaps below the largest id followed by largest id + 1. -/
def pmRecomputeFreeList (ids : List Nat) : List Nat :=
  let existing := ids.mergeSort (fun a b => a ≤ b)
  match existing.getLast? with
  | none => [0]
  | some back => pmRecomputeLoop existing back 0 0 ++ [back + 1]

/-- `PackfileManager::newPackfile`: return the first free id; with exactly
one id in the list bump it in place, otherwise pop the front.  (The code
asserts the list is nonempty; the `[]` case is unreachable.) -/
def pmNewPackfile : List Nat → Nat × List Nat
  | [] => (0, [])
  | [x] => (x, [x + 1])
  | x :: xs => (x, xs)

/-- Successive `newPackfile` calls: the list of allocated ids and the final
free list. -/
def pmNewPackfileIter : Nat → List Nat → List Nat × List Nat
  | 0, l => ([], l)
  | k + 1, l =>
    let r := pmNewPackfile l
    let r2 := pmNewPackfileIter k r.2
    (r.1 :: r2.1, r2.2)

/-- The observable side effects of `Packfile::commit` and
`Packfile::receive` that claim C3 orders: writing the group header block,
writing the payload bytes of staged object `i`, and calling
`Index::updateEntry` for staged object `i`. -/
inductive PackEv where
  | writeHeaders : PackEv
  | writePayload : Nat → PackEv
  | updateIndex : Nat → PackEv
deriving DecidableEq

/-- The payload loop of `Packfile::commit` as an event trace, for objects
`i0, i0+1, ..., i0+k-1`: each iteration writes payload `i` and then updates
the index for `i`. -/
def commitEvAux : Nat → Nat → List PackEv
  | _, 0 => []
  | i, k + 1 =>
    PackEv.writePayload i :: PackEv.updateIndex i :: commitEvAux (i + 1) k

/-- The event trace of `Packfile::commit` on a transaction of `n` staged
objects: the header block is written first, then per object the payload
write followed by that object's index update. -/
def commitEvents (n : Nat) : List PackEv :=
  PackEv.writeHeaders :: commitEvAux 0 n

/-- The header loop of `Packfile::receive` as an event trace: the index is
updated for each received object while its header is being assembled. -/
def receiveEvAux1 : Nat → Nat → List PackEv
  | _, 0 => []
  | i, k + 1 => PackEv.updateIndex i :: receiveEvAux1 (i + 1) k

/-- The payload loop of `Packfile::receive` as an event trace. -/
def receiveEvAux2 : Nat → Nat → List PackEv
  | _, 0 => []
  | i, k + 1 => PackEv.writePayload i :: receiveEvAux2 (i + 1) k

/-- The event trace of `Packfile::receive` on `n` received objects: all
index updates happen in the header loop, then the header block is written,
then the payload bytes. -/
def receiveEvents (n : Nat) : List PackEv :=
  receiveEvAux1 0 n ++ PackEv.writeHeaders :: receiveEvAux2 0 n

/-- Claim C3 as stated, over an event trace: every index update occurs
strictly after all payload writes of the group, i.e. wherever the trace
splits at an `updateIndex` event, every `writePayload` event of the whole
trace already lies in the prefix. -/
def updatesAfterAllPayloads (tr : List PackEv) : Prop :=
  ∀ i l1 l2, tr = l1 ++ PackEv.updateIndex i :: l2 →
    ∀ j, PackEv.writePayload j ∈ tr → PackEv.writePayload j ∈ l1

/-- Claim C4 as stated: whenever `purge` completes, no hash of the purge set
is still resolved by the index. -/
def purgeUnreachable (pf : Packfile) (hset : ObjectHash → Bool) (idx : Index) : Prop :=
  ∀ r, pfPurge pf hset idx = some r →
    ∀ h, hset h = true → alGet? r.2.1 h = none

/-- Claim C6 as stated: for every metadata log, `rewrite()` leaves the file
holding exactly one entry whose pairs are the pre-rewrite in-memory map, and
restores the in-memory map. -/
def rewriteCompacts : Prop :=
  ∀ st : MetadataLog,
    (mdRewrite st).file = entrySer st.refcounts ∧
    (mdRewrite st).refcounts = st.refcounts

/-- A concrete nonempty well-formed hash used by witnesses and
counterexamples. -/
def hashA : ObjectHash := ⟨List.replicate 31 0 ++ [1]⟩

/-- A concrete object info for a 5-byte payload, flags clear. -/
def infoHello : ObjectInfo := { hash := hashA, kind := 0, flags := 0, payload_size := 5 }

/-- The bytes of the payload "hello". -/
def helloBytes : List Nat := [104, 101, 108, 108, 111]

/-- An empty pack with packid 0 (a freshly created pack file). -/
def pfZero : Packfile := { file := [], packid := 0, numObjects := 0, fileSize := 0 }

/-- A codec whose admission test always rejects: every payload is stored
raw. -/
def rawCodec : Codec :=
  { admits := fun _ => false, compress := fun p => p, decompress := fun _ p => p }

/-- A degenerate codec whose admission test always accepts and whose
compression is the identity; it satisfies the decompress-compress round
trip. -/
def idCodec : Codec :=
  { admits := fun _ => true, compress := fun p => p, decompress := fun _ p => p }

/-- The single-object transaction staging "hello" uncompressed. -/
def trHello : PfTransaction := pfAddPayload rawCodec pfBegin infoHello helloBytes

/-- The pack holding exactly the "hello" object (one committed group). -/
def packOne : Packfile := (pfCommit pfZero trHello []).1

/-- The index after committing the "hello" object into `packOne`. -/
def idxOne : Index := (pfCommit pfZero trHello []).2.1

/-- The purge set containing exactly `hashA`. -/
def hsetA : ObjectHash → Bool := fun h => h == hashA

/-- Membership-respecting lookup into an association list, as a helper for
stating map facts. -/
theorem alGet?_alSet_self {α β : Type} [DecidableEq α] (m : List (α × β)) (k : α) (v : β) :
    alGet? (alSet m k v) k = some v := by
  induction m with
  | nil => simp [alSet, alGet?]
  | cons p rest ih =>
    obtain ⟨k2, v2⟩ := p
    by_cases h : k2 = k <;> simp [alSet, alGet?, h, ih]

/-- Updating one key leaves the lookup of any other key unchanged. -/
theorem alGet?_alSet_ne {α β : Type} [DecidableEq α] (m : List (α × β)) (k k2 : α) (v : β)
    (h : k2 ≠ k) : alGet? (alSet m k v) k2 = alGet? m k2 := by
  induction m with
  | nil =>
    simp only [alSet, alGet?]
    exact if_neg (fun he => h he.symm)
  | cons p rest ih =>
    obtain ⟨k3, v3⟩ := p
    by_cases h3 : k3 = k <;> by_cases h4 : k3 = k2 <;>
      simp_all [alSet, alGet?]

/-- A serialized object info occupies exactly `INFO_SIZE` bytes. -/
theorem infoSer_length (i : ObjectInfo) (h : i.hash.bytes.length = HASH_SIZE) :
    (infoSer i).length = INFO_SIZE := by
  simp [infoSer, le32, le64, h, HASH_SIZE, INFO_SIZE]

/-- Committing a transaction holding a single staged object records exactly
one index entry, at offset `fileSize + 4 + ENTRYSIZE`, and the pack file
bytes at that offset are the staged payload. -/
theorem pfCommit_single (pf : Packfile) (idx : Index) (i2 : ObjectInfo) (s : List Nat)
    (tr : PfTransaction) (hti : tr.infos = [i2]) (htp : tr.payloads = [s])
    (hfs : pf.fileSize = pf.file.length) (hl : i2.hash.bytes.length = HASH_SIZE) :
    alGet? (pfCommit pf tr idx).2.1 i2.hash
        = some { info := i2, offset := pf.fileSize + 4 + ENTRYSIZE,
                 packed_size := s.length, packfile := pf.packid } ∧
    ((pfCommit pf tr idx).1.file.drop (pf.fileSize + 4 + ENTRYSIZE)).take s.length = s := by
  have hfile : (pfCommit pf tr idx).1.file
      = (pf.file ++ (le32 tr.infos.length
          ++ (pfHeaderLoop (tr.infos.zip tr.payloads)
              (pf.fileSize + 4 + tr.infos.length * ENTRYSIZE)).1)) ++ s := by
    simp [pfCommit, htp]
  have hAlen : (pf.file ++ (le32 tr.infos.length
          ++ (pfHeaderLoop (tr.infos.zip tr.payloads)
              (pf.fileSize + 4 + tr.infos.length * ENTRYSIZE)).1)).length
      = pf.fileSize + 4 + ENTRYSIZE := by
    simp [hti, htp, pfHeaderLoop, infoSer, le32, le64, hl, hfs, ENTRYSIZE, INFO_SIZE,
      HASH_SIZE]
  constructor
  · simp [pfCommit, hti, htp, pfIndexLoop, pfHeaderLoop, alGet?_alSet_self]
  · rw [hfile, ← hAlen, List.drop_left, List.take_length]

/-- Claim C1 (pack round-trip): staging `addPayload(info, p)` in a pack
transaction, committing it, and reading back through `getPayload` of the
index entry recorded for `info.hash` yields exactly `p`, both when the
compression admission test stores the payload raw and when it sets the
compressed flag and stores the compressed bytes (given that the external
codec's decompression inverts its compression on `p`). -/
theorem c1_pack_roundtrip (c : Codec) (pf : Packfile) (idx : Index)
    (info : ObjectInfo) (p : List Nat)
    (hfs : pf.fileSize = pf.file.length)
    (hhl : info.hash.bytes.length = HASH_SIZE)
    (hne : info.hash.isEmpty = false)
    (hfl : info.flags.testBit 0 = false)
    (hps : info.payload_size = p.length)
    (hcodec : c.decompress p.length (c.compress p) = p) :
    ((alGet? (pfCommit pf (pfAddPayload c pfBegin info p) idx).2.1 info.hash).map
        (pfGetPayload c (pfCommit pf (pfAddPayload c pfBegin info p) idx).1)) = some p := by
  by_cases hadm : c.admits p
  case pos =>
    have h2 := pfCommit_single pf idx
      { info with flags := info.flags ||| ORI_FLAG_COMPRESSED } (c.compress p)
      (pfAddPayload c pfBegin info p)
      (by simp [pfAddPayload, pfBegin, hadm])
      (by simp [pfAddPayload, pfBegin, hadm]) hfs (by simpa using hhl)
    rw [show (({ info with flags := info.flags ||| ORI_FLAG_COMPRESSED } : ObjectInfo)).hash
        = info.hash from rfl] at h2
    rw [h2.1]
    simp only [Option.map_some', pfGetPayload, ObjectInfo.getCompressed]
    rw [h2.2]
    simp [ORI_FLAG_COMPRESSED, Nat.testBit_or, hps, hcodec]
  case neg =>
    have h2 := pfCommit_single pf idx info p
      (pfAddPayload c pfBegin info p)
      (by simp [pfAddPayload, pfBegin, hadm])
      (by simp [pfAddPayload, pfBegin, hadm]) hfs hhl
    rw [h2.1]
    simp only [Option.map_some', pfGetPayload, ObjectInfo.getCompressed]
    rw [h2.2]
    simp [hfl]

/-- Witness for C1: the round trip evaluated on the concrete "hello" object
through the compressing (identity) codec. -/
theorem c1_pack_roundtrip_witness :
    idCodec.decompress helloBytes.length (idCodec.compress helloBytes) = helloBytes ∧
    ((alGet? (pfCommit pfZero (pfAddPayload idCodec pfBegin infoHello helloBytes) []).2.1
        infoHello.hash).map
      (pfGetPayload idCodec
        (pfCommit pfZero (pfAddPayload idCodec pfBegin infoHello helloBytes) []).1))
      = some helloBytes :=
  ⟨rfl, c1_pack_roundtrip idCodec pfZero [] infoHello helloBytes rfl (by decide)
    (by decide) (by decide) (by decide) rfl⟩

/-- Claim C5 (single-object commit layout): committing the single
uncompressed 5-byte payload "hello" into an empty pack with packid 0 makes
`fileSize` equal 65 = 4 + 56 + 5 and records the index entry
`{offset = 60, packed_size = 5, packfile = 0}` for its hash. -/
theorem c5_single_object_layout :
    (pfCommit pfZero trHello []).1.fileSize = 65 ∧
    alGet? (pfCommit pfZero trHello []).2.1 hashA
      = some { info := infoHello, offset := 60, packed_size := 5, packfile := 0 } := by
  constructor
  · decide
  · decide

/-- Claim C9 (implicit, addRef without a transaction): `addRef(hash)` with
no transaction supplied commits before returning, appending exactly one log
entry holding the single pair `(hash, refcounts[hash] + 1)` (32-bit
arithmetic) and updating the in-memory map accordingly. -/
theorem c9_addref_immediate_commit (st : MetadataLog) (h : ObjectHash) :
    (mdAddRefNoTr st h).file
        = st.file ++ entrySer [(h, (mdGetRefCount st h + 1) % W32)] ∧
    (mdAddRefNoTr st h).refcounts
        = alSet st.refcounts h ((mdGetRefCount st h + 1) % W32) := by
  simp [mdAddRefNoTr, mdCommit, mdCommitLoop, entrySer, pairsSer, mdGetRefCount]

/-- Claim C10 (implicit, empty pack transaction): the scoped release of an
uncommitted pack transaction with zero staged objects still runs
`Packfile::commit`, which appends the 4-byte `num = 0` group header and
grows `fileSize` by 4 while leaving `numObjects` and the index unchanged —
unlike an empty metadata transaction, whose commit writes nothing. -/
theorem c10_empty_pack_transaction_commits (pf : Packfile) (idx : Index) (st : MetadataLog) :
    pfRelease pf pfBegin idx = pfCommit pf pfBegin idx ∧
    (pfRelease pf pfBegin idx).1.file = pf.file ++ le32 0 ∧
    (le32 0).length = 4 ∧
    (pfRelease pf pfBegin idx).1.fileSize = pf.fileSize + 4 ∧
    (pfRelease pf pfBegin idx).1.numObjects = pf.numObjects ∧
    (pfRelease pf pfBegin idx).2.1 = idx ∧
    mdCommit st [] = st := by
  simp [pfRelease, pfBegin, pfCommit, pfHeaderLoop, pfIndexLoop, mdCommit, le32]

/-- Claim C8 (free-list recovery and allocation order): with exactly
`pack0.pak` and `pack2.pak` present and the free-list file unreadable, the
manager recomputes `freeList = [1, 3]`; successive `newPackfile()` calls
then return ids 1, 3, 4, 5; and `newPackfile` never empties the free list
(the sole remaining tail id is bumped in place instead of popped). -/
theorem c8_free_list_recovery_allocation :
    pmRecomputeFreeList [0, 2] = [1, 3] ∧
    (pmNewPackfileIter 4 [1, 3]).1 = [1, 3, 4, 5] ∧
    (∀ l : List Nat, l ≠ [] → (pmNewPackfile l).2 ≠ []) := by
  refine ⟨?_, by decide, ?_⟩
  · simp [pmRecomputeFreeList, List.mergeSort]
    rw [pmRecomputeLoop]
    norm_num
    rw [pmRecomputeLoop]
    norm_num
    rw [pmRecomputeLoop]
    norm_num
  · intro l hl
    match l with
    | [x] => simp [pmNewPackfile]
    | x :: y :: xs => simp [pmNewPackfile]

/-- Witness for C8: the nonemptiness invariant applied to the concrete
singleton free list. -/
theorem c8_free_list_recovery_allocation_witness :
    ([1] : List Nat) ≠ [] ∧ (pmNewPackfile [1]).2 ≠ [] :=
  ⟨by decide, c8_free_list_recovery_allocation.2.2 [1] (by decide)⟩

/-- Splitting the commit payload loop trace at an index update: the same
object's payload write is already in the prefix. -/
theorem commitEvAux_split (k : Nat) : ∀ i0 i l1 l2,
    commitEvAux i0 k = l1 ++ PackEv.updateIndex i :: l2 →
    PackEv.writePayload i ∈ l1 := by
  induction k with
  | zero => intro i0 i l1 l2 h; cases l1 <;> simp_all [commitEvAux]
  | succ k ih =>
    intro i0 i l1 l2 h
    match l1, h with
    | [], h => simp [commitEvAux] at h
    | [a], h =>
      simp [commitEvAux] at h
      obtain ⟨ha, hi, -⟩ := h
      subst hi
      simp [← ha]
    | a :: b :: l1x, h =>
      simp [commitEvAux] at h
      obtain ⟨ha, hb, hrest⟩ := h
      have := ih (i0 + 1) i l1x l2 hrest
      simp [this]

/-- Every element of the receive header-loop trace is an index update. -/
theorem receiveEvAux1_mem (k : Nat) : ∀ i0 x, x ∈ receiveEvAux1 i0 k →
    ∃ j, x = PackEv.updateIndex j := by
  induction k with
  | zero => intro i0 x h; simp [receiveEvAux1] at h
  | succ k ih =>
    intro i0 x h
    simp [receiveEvAux1] at h
    rcases h with h | h
    · exact ⟨i0, h⟩
    · exact ih (i0 + 1) x h

/-- Every element of the receive payload-loop trace is a payload write. -/
theorem receiveEvAux2_mem (k : Nat) : ∀ i0 x, x ∈ receiveEvAux2 i0 k →
    ∃ j, x = PackEv.writePayload j := by
  induction k with
  | zero => intro i0 x h; simp [receiveEvAux2] at h
  | succ k ih =>
    intro i0 x h
    simp [receiveEvAux2] at h
    rcases h with h | h
    · exact ⟨i0, h⟩
    · exact ih (i0 + 1) x h

/-- When a list of the shape `A ++ y :: B` is split at an element that is
neither in `A` nor equal to `y`, the split prefix extends past `A ++ [y]`. -/
theorem append_cons_split {α : Type} (A : List α) (y : α) : ∀ (l1 : List α) (x : α) l2 B,
    A ++ y :: B = l1 ++ x :: l2 → x ∉ A → x ≠ y →
    ∃ l1x, l1 = A ++ y :: l1x ∧ B = l1x ++ x :: l2 := by
  induction A with
  | nil =>
    intro l1 x l2 B h hnA hny
    match l1, h with
    | [], h => simp at h; exact absurd h.1.symm hny
    | a :: l1x, h =>
      simp at h
      exact ⟨l1x, by simp [h.1], h.2⟩
  | cons a A2 ih =>
    intro l1 x l2 B h hnA hny
    match l1, h with
    | [], h =>
      simp at h
      exact absurd (by simp [h.1]) hnA
    | b :: l1y, h =>
      simp at h
      obtain ⟨hb, hrest⟩ := h
      obtain ⟨l1x, hl1, hB⟩ := ih l1y x l2 B hrest (fun hm => hnA (by simp [hm])) hny
      exact ⟨l1x, by simp [hb, hl1], hB⟩

/-- Counterexample to claim C3 as stated: in the `Packfile::commit` trace of
a two-object group the index update for object 0 happens before the payload
write of object 1, and in the `Packfile::receive` trace of a one-object
group the index update happens before the payload write. -/
theorem c3_counterexample :
    ¬ (updatesAfterAllPayloads (commitEvents 2) ∧
       updatesAfterAllPayloads (receiveEvents 1)) := by
  intro hcl
  have h := hcl.1 0 [PackEv.writeHeaders, PackEv.writePayload 0]
    [PackEv.writePayload 1, PackEv.updateIndex 1] (by decide) 1 (by decide)
  exact absurd h (by decide)

/-- Claim C3, amended: in `Packfile::commit` the index update for a staged
object occurs strictly after that same object's payload bytes are written
(though not after the whole group's payloads); in `Packfile::receive` every
index update occurs before any payload bytes are written (during the header
loop). -/
theorem c3_index_update_ordering :
    (∀ n i l1 l2, commitEvents n = l1 ++ PackEv.updateIndex i :: l2 →
        PackEv.writePayload i ∈ l1) ∧
    (∀ n i l1 l2, receiveEvents n = l1 ++ PackEv.writePayload i :: l2 →
        ∀ j, PackEv.updateIndex j ∈ receiveEvents n → PackEv.updateIndex j ∈ l1) := by
  constructor
  · intro n i l1 l2 h
    match l1, h with
    | [], h => simp [commitEvents] at h
    | a :: l1x, h =>
      simp [commitEvents] at h
      obtain ⟨ha, hrest⟩ := h
      have := commitEvAux_split n 0 i l1x l2 hrest
      simp [this]
  · intro n i l1 l2 h j hj
    have hni : PackEv.writePayload i ∉ receiveEvAux1 0 n := by
      intro hm
      obtain ⟨j2, hj2⟩ := receiveEvAux1_mem n 0 _ hm
      simp at hj2
    obtain ⟨l1x, hl1, hB⟩ := append_cons_split (receiveEvAux1 0 n) PackEv.writeHeaders
      l1 (PackEv.writePayload i) l2 (receiveEvAux2 0 n) h hni (by simp)
    rw [hl1]
    rw [receiveEvents] at hj
    rcases List.mem_append.mp hj with hA | hwB
    · exact List.mem_append_left _ hA
    · rcases List.mem_cons.mp hwB with he | hB2
      · simp at he
      · obtain ⟨j2, hj2⟩ := receiveEvAux2_mem n 0 _ hB2
        simp at hj2

/-- Witness for the amended C3: in the one-object commit trace the index
update sits right after the payload write. -/
theorem c3_index_update_ordering_witness :
    commitEvents 1 = [PackEv.writeHeaders, PackEv.writePayload 0]
        ++ PackEv.updateIndex 0 :: [] ∧
    PackEv.writePayload 0 ∈ [PackEv.writeHeaders, PackEv.writePayload 0] :=
  ⟨by decide, c3_index_update_ordering.1 1 0
    [PackEv.writeHeaders, PackEv.writePayload 0] [] (by decide)⟩

/-- The objects a purge scan stages are exactly those whose hash is not in
the purge set (header-loop part). -/
theorem pgHeaders_infos (hset : ObjectHash → Bool) (n : Nat) (bs : List Nat) :
    ∀ r, pgHeaders hset n bs = some r → ∀ i ∈ r.1, hset i.hash = false := by
  induction n, bs using pgHeaders.induct hset with
  | case1 bs =>
    intro r h i hi
    simp [pgHeaders] at h
    rw [← h] at hi
    simp at hi
  | case2 n bs hlen =>
    intro r h
    simp [pgHeaders, hlen] at h
  | case3 n bs hlen hrec ih =>
    intro r h
    simp only [pgHeaders, if_neg hlen, hrec] at h
    simp at h
  | case4 n bs hlen info r2 hrec hs ih =>
    intro r h i hi
    simp only [pgHeaders, if_neg hlen, hrec] at h
    simp only [hs, if_true, if_pos] at h
    simp at h
    rw [← h] at hi
    exact ih r2 hrec i hi
  | case5 n bs hlen info r2 hrec hs ih =>
    intro r h i hi
    simp only [pgHeaders, if_neg hlen, hrec] at h
    rw [if_neg hs] at h
    simp at h
    rw [← h] at hi
    simp at hi
    rcases hi with hi | hi
    · rw [hi]
      simpa using hs
    · exact ih r2 hrec i hi

/-- The objects a purge scan stages are exactly those whose hash is not in
the purge set (group-loop part). -/
theorem pgScan_infos (hset : ObjectHash → Bool) (bs : List Nat)
    (acc1 : List ObjectInfo) (acc2 : List (List Nat)) :
    ∀ out, pgScan hset bs acc1 acc2 = some out →
      (∀ i ∈ acc1, hset i.hash = false) → ∀ i ∈ out.1, hset i.hash = false := by
  induction bs, acc1, acc2 using pgScan.induct hset with
  | case1 bs acc1 acc2 hlen =>
    intro out h hacc i hi
    rw [pgScan, if_pos hlen] at h
    simp at h
    rw [← h] at hi
    exact hacc i hi
  | case2 bs acc1 acc2 hlen num hnone =>
    intro out h
    rw [pgScan, if_neg hlen] at h
    simp only [hnone] at h
    simp at h
  | case3 bs acc1 acc2 hlen num r hrec ih =>
    intro out h hacc i hi
    rw [pgScan, if_neg hlen] at h
    simp only [hrec] at h
    refine ih out h ?_ i hi
    intro i2 hi2
    rcases List.mem_append.mp hi2 with h2 | h2
    · exact hacc i2 h2
    · exact pgHeaders_infos hset (le32dec bs) (bs.drop 4) r hrec i2 h2

/-- The commit index loop does not disturb the lookup of a hash outside the
staged objects. -/
theorem pfIndexLoop_other (packid : Nat) (h : ObjectHash) :
    ∀ (l : List ((ObjectInfo × List Nat) × Nat)) (idx : Index),
      (∀ x ∈ l, x.1.1.hash ≠ h) →
      alGet? (pfIndexLoop packid l idx) h = alGet? idx h := by
  intro l
  induction l with
  | nil => intro idx hl; simp [pfIndexLoop]
  | cons x rest ih =>
    intro idx hl
    obtain ⟨⟨info, p⟩, off⟩ := x
    rw [pfIndexLoop]
    rw [ih _ (fun y hy => hl y (by simp [hy]))]
    exact alGet?_alSet_ne idx info.hash h
      { info := info, offset := off, packed_size := p.length, packfile := packid }
      (hl ((info, p), off) (by simp)).symm

set_option maxRecDepth 10000

/-- Evaluation of `purge` on the concrete one-object pack with its own
object in the purge set: the scan stages nothing, the file is replaced by a
single empty group header, and the index is returned unchanged. -/
theorem pfPurge_packOne_eval :
    pfPurge packOne hsetA idxOne
      = some ({ file := [0, 0, 0, 0], packid := 0, numObjects := 1, fileSize := 69 },
          idxOne, true) := by
  have hscan : pgScan hsetA packOne.file [] [] = some ([], []) := by
    rw [pgScan]
    norm_num
    have hH : pgHeaders hsetA (le32dec packOne.file) (packOne.file.drop 4)
        = some ([], [(5, true)]) := by decide
    rw [hH]
    simp only []
    rw [pgScan]
    decide
  rw [pfPurge, hscan]
  decide

/-- Counterexample to claim C4 as stated: purging the only object of the
concrete one-object pack completes, yet the purged hash is still resolved by
the index afterwards (purge never removes index entries of purged hashes). -/
theorem c4_counterexample : ¬ purgeUnreachable packOne hsetA idxOne := by
  intro hcl
  have h2 := hcl ({ file := [0, 0, 0, 0], packid := 0, numObjects := 1, fileSize := 69 },
      idxOne, true) pfPurge_packOne_eval hashA (by decide)
  exact absurd h2 (by decide)

/-- Claim C4, amended: after `purge(H, index)` completes (including the
scoped-release commit of the surviving transaction), the index entry of
every hash in `H` is exactly what it was before the purge — the pack file no
longer stores those objects, but `purge` does not remove or update their
index entries, so a previously reachable purged hash is still resolved by
the index (to a stale entry). -/
theorem c4_purge_keeps_purged_index_entries (pf : Packfile) (hset : ObjectHash → Bool)
    (idx : Index) (out : Packfile × Index × Bool)
    (hp : pfPurge pf hset idx = some out)
    (h : ObjectHash) (hh : hset h = true) :
    alGet? out.2.1 h = alGet? idx h := by
  rcases hscan : pgScan hset pf.file [] [] with - | ⟨infos, pays⟩
  · rw [pfPurge, hscan] at hp
    simp at hp
  · rw [pfPurge, hscan] at hp
    simp only [Option.some.injEq] at hp
    rw [← hp]
    have hinfos : ∀ i ∈ infos, hset i.hash = false :=
      pgScan_infos hset pf.file [] [] (infos, pays) hscan (by simp)
    simp only [pfRelease, pfCommit]
    apply pfIndexLoop_other
    intro x hx
    have hx1 : x.1.1 ∈ infos := by
      have h1 := List.of_mem_zip (List.of_mem_zip hx).1
      simpa using h1.1
    intro he
    have hf := hinfos _ hx1
    rw [he, hh] at hf
    simp at hf

/-- Witness for the amended C4: on the concrete one-object pack, the purged
hash's index entry after the purge equals its entry before. -/
theorem c4_purge_keeps_purged_index_entries_witness :
    pfPurge packOne hsetA idxOne
      = some ({ file := [0, 0, 0, 0], packid := 0, numObjects := 1, fileSize := 69 },
          idxOne, true) ∧
    hsetA hashA = true ∧
    alGet? ((({ file := [0, 0, 0, 0], packid := 0, numObjects := 1, fileSize := 69 },
        idxOne, true) : Packfile × Index × Bool)).2.1 hashA = alGet? idxOne hashA :=
  ⟨pfPurge_packOne_eval, by decide,
    c4_purge_keeps_purged_index_entries packOne hsetA idxOne
      ({ file := [0, 0, 0, 0], packid := 0, numObjects := 1, fileSize := 69 }, idxOne, true)
      pfPurge_packOne_eval hashA (by decide)⟩

/-- Lookup walks past a prefix that does not hold the key. -/
theorem alGet?_append_of_none {α β : Type} [DecidableEq α] (m l : List (α × β)) (k : α)
    (h : alGet? m k = none) : alGet? (m ++ l) k = alGet? l k := by
  induction m with
  | nil => simp
  | cons p rest ih =>
    obtain ⟨k2, v2⟩ := p
    by_cases h2 : k2 = k
    · simp [alGet?, h2] at h
    · simp [alGet?, h2] at h ⊢
      exact ih h

/-- Upserting an absent key appends it at the end. -/
theorem alSet_fresh {α β : Type} [DecidableEq α] (m : List (α × β)) (k : α) (v : β)
    (h : alGet? m k = none) : alSet m k v = m ++ [(k, v)] := by
  induction m with
  | nil => simp [alSet]
  | cons p rest ih =>
    obtain ⟨k2, v2⟩ := p
    by_cases h2 : k2 = k
    · simp [alGet?, h2] at h
    · simp [alGet?, h2] at h
      simp [alSet, h2, ih h]

/-- The commit pair loop over deltas whose keys are distinct and absent from
the running map writes the deltas back verbatim (the seeded values are below
the 32-bit modulus) and extends the map by exactly those pairs. -/
theorem mdCommitLoop_fresh : ∀ (M m : List (ObjectHash × Nat)),
    (M.map Prod.fst).Nodup → (∀ p ∈ M, p.2 < W32) →
    (∀ p ∈ M, alGet? m p.1 = none) →
    (mdCommitLoop M m).2 = M ∧ (mdCommitLoop M m).1 = m ++ M := by
  intro M
  induction M with
  | nil => intro m hnd hv hf; simp [mdCommitLoop]
  | cons p rest ih =>
    intro m hnd hv hf
    obtain ⟨h, d⟩ := p
    have hget : mapGet m h = 0 := by
      simp [mapGet, hf (h, d) (by simp)]
    have hfinal : (mapGet m h + d) % W32 = d := by
      rw [hget]
      simpa using Nat.mod_eq_of_lt (hv (h, d) (by simp))
    have hset : alSet m h ((mapGet m h + d) % W32) = m ++ [(h, d)] := by
      rw [hfinal]
      exact alSet_fresh m h d (hf (h, d) (by simp))
    have hfresh2 : ∀ p ∈ rest, alGet? (m ++ [(h, d)]) p.1 = none := by
      intro q hq
      rw [alGet?_append_of_none m _ _ (hf q (by simp [hq]))]
      have hne : h ≠ q.1 := by
        intro he
        have hcons : ∀ x : Nat, (h, x) ∉ rest := by
          have h2 := hnd
          simp at h2
          exact h2.1
        apply hcons q.2
        rw [he]
        simpa using hq
      simp [alGet?, hne]
    have hnd2 : (rest.map Prod.fst).Nodup := by
      simp at hnd
      exact hnd.2
    have ihr := ih (m ++ [(h, d)]) hnd2 (fun q hq => hv q (by simp [hq])) hfresh2
    rw [mdCommitLoop]
    simp only [hset]
    constructor
    · simp [ihr.1, hfinal]
    · simp [ihr.2]

/-- Counterexample to claim C6 as stated: on a metadata log whose in-memory
map is empty, `rewrite()` leaves the file empty — commit writes nothing for
an empty delta map — rather than holding one (empty) entry. -/
theorem c6_counterexample : ¬ rewriteCompacts := by
  intro hcl
  have h := (hcl mdInit).1
  rw [show mdRewrite mdInit = mdInit from rfl] at h
  exact absurd h (by decide)

/-- Claim C6, amended: for a metadata log whose in-memory map `M` is
nonempty (a well-formed map: distinct keys, 32-bit counts), `rewrite()`
truncates the file and, at the rewrite transaction's scoped release, leaves
the file containing exactly one entry whose pairs equal `M`, with the
in-memory map again equal to `M`; when `M` is empty the file is left empty
(zero entries). -/
theorem c6_rewrite_compaction (st : MetadataLog)
    (hnd : (st.refcounts.map Prod.fst).Nodup)
    (hv : ∀ p ∈ st.refcounts, p.2 < W32)
    (hne : st.refcounts ≠ []) :
    (mdRewrite st).file = entrySer st.refcounts ∧
    (mdRewrite st).refcounts = st.refcounts := by
  have hl := mdCommitLoop_fresh st.refcounts [] hnd hv (by simp [alGet?])
  have hlen : st.refcounts.length ≠ 0 := by simpa using hne
  rw [mdRewrite, mdCommit]
  rw [if_neg hlen]
  simp [hl.1, hl.2, entrySer]

/-- Witness for the amended C6: rewriting a log whose map holds the single
pair `(hashA, 1)` compacts the file to exactly that one entry. -/
theorem c6_rewrite_compaction_witness :
    ((([(hashA, 1)] : List (ObjectHash × Nat)).map Prod.fst).Nodup) ∧
    (∀ p ∈ ([(hashA, 1)] : List (ObjectHash × Nat)), p.2 < W32) ∧
    ([(hashA, 1)] : List (ObjectHash × Nat)) ≠ [] ∧
    ((mdRewrite { file := [], refcounts := [(hashA, 1)] }).file
        = entrySer [(hashA, 1)] ∧
     (mdRewrite { file := [], refcounts := [(hashA, 1)] }).refcounts
        = [(hashA, 1)]) :=
  ⟨by decide, by decide, by decide,
    c6_rewrite_compaction { file := [], refcounts := [(hashA, 1)] }
      (by decide) (by decide) (by decide)⟩

/-- Decoding the four little-endian bytes of a 32-bit value recovers it. -/
theorem le32dec_le32_append (n : Nat) (hn : n < W32) (r : List Nat) :
    le32dec (le32 n ++ r) = n := by
  simp [le32, le32dec, List.getD]
  simp [W32] at hn
  omega

theorem pairSer_length (p : ObjectHash × Nat) (h : p.1.bytes.length = HASH_SIZE) :
    (pairSer p).length = HASH_SIZE + 4 := by
  simp [pairSer, le32, h]

theorem pairsSer_length (ps : List (ObjectHash × Nat))
    (h : ∀ p ∈ ps, p.1.bytes.length = HASH_SIZE) :
    (pairsSer ps).length = ps.length * (HASH_SIZE + 4) := by
  induction ps with
  | nil => simp [pairsSer]
  | cons p rest ih =>
    simp only [pairsSer, List.map_cons, List.flatten_cons, List.length_append,
      List.length_cons]
    rw [pairSer_length p (h p (by simp))]
    rw [show (List.map pairSer rest).flatten = pairsSer rest from rfl]
    rw [ih (fun q hq => h q (by simp [hq]))]
    ring

theorem mdReadPairs_ser (ps : List (ObjectHash × Nat)) :
    ∀ (rest : List Nat) (m : List (ObjectHash × Nat)),
    (∀ p ∈ ps, p.1.bytes.length = HASH_SIZE ∧ p.2 < W32) →
    mdReadPairs ps.length (pairsSer ps ++ rest) m
      = ps.foldl (fun acc p => alSet acc p.1 p.2) m := by
  induction ps with
  | nil => intro rest m h; simp [mdReadPairs, pairsSer]
  | cons p rest2 ih =>
    intro rest m h
    obtain ⟨hh, hv⟩ := h p (by simp)
    obtain ⟨hs, cnt⟩ := p
    simp only at hh hv
    rw [List.length_cons, mdReadPairs]
    have hb : pairsSer ((hs, cnt) :: rest2) ++ rest
        = hs.bytes ++ (le32 cnt ++ (pairsSer rest2 ++ rest)) := by
      simp [pairsSer, pairSer]
    rw [hb]
    have ht32 : (hs.bytes ++ (le32 cnt ++ (pairsSer rest2 ++ rest))).take 32 = hs.bytes := by
      rw [show (32 : Nat) = hs.bytes.length from by rw [hh]; rfl]
      exact List.take_left hs.bytes _
    have hd32 : (hs.bytes ++ (le32 cnt ++ (pairsSer rest2 ++ rest))).drop 32
        = le32 cnt ++ (pairsSer rest2 ++ rest) := by
      rw [show (32 : Nat) = hs.bytes.length from by rw [hh]; rfl]
      exact List.drop_left hs.bytes _
    have hd36 : (hs.bytes ++ (le32 cnt ++ (pairsSer rest2 ++ rest))).drop 36
        = pairsSer rest2 ++ rest := by
      rw [show hs.bytes ++ (le32 cnt ++ (pairsSer rest2 ++ rest))
          = (hs.bytes ++ le32 cnt) ++ (pairsSer rest2 ++ rest) from by simp]
      rw [show (36 : Nat) = (hs.bytes ++ le32 cnt).length from by simp [hh, le32]; rfl]
      exact List.drop_left _ _
    rw [ht32, hd32, hd36]
    rw [le32dec_le32_append cnt hv]
    rw [ih rest _ (fun q hq => h q (by simp [hq]))]
    rfl

theorem mdOpenLoop_entry_step (ps : List (ObjectHash × Nat)) (rest : List Nat)
    (readSoFar : Nat) (m : List (ObjectHash × Nat)) (fileSize : Nat)
    (hwf : ∀ p ∈ ps, p.1.bytes.length = HASH_SIZE ∧ p.2 < W32)
    (hnum : ps.length < W32)
    (hfs : fileSize = readSoFar + (entrySer ps ++ rest).length) :
    mdOpenLoop fileSize (entrySer ps ++ rest) readSoFar m
      = mdOpenLoop fileSize rest (readSoFar + 4 + ps.length * (HASH_SIZE + 4))
          (ps.foldl (fun acc p => alSet acc p.1 p.2) m) := by
  have hb : entrySer ps ++ rest = le32 ps.length ++ (pairsSer ps ++ rest) := by
    simp [entrySer]
  have hcons : ∃ t, le32 ps.length ++ (pairsSer ps ++ rest)
      = (ps.length % 256) :: t := ⟨_, rfl⟩
  obtain ⟨t, ht⟩ := hcons
  rw [hb, ht, mdOpenLoop]
  simp only [← ht]
  rw [le32dec_le32_append ps.length hnum]
  have hplen : (pairsSer ps).length = ps.length * (HASH_SIZE + 4) :=
    pairsSer_length ps (fun p hp => (hwf p hp).1)
  have hcheck : ¬ (ps.length * (HASH_SIZE + 4) + (readSoFar + 4) > fileSize) := by
    rw [hfs, hb]
    simp [le32, hplen]
    omega
  rw [if_neg hcheck]
  have hdrop4 : (le32 ps.length ++ (pairsSer ps ++ rest)).drop 4 = pairsSer ps ++ rest := by
    rw [show (4 : Nat) = (le32 ps.length).length from rfl]
    exact List.drop_left _ _
  have hdropAll : (le32 ps.length ++ (pairsSer ps ++ rest)).drop
      (4 + ps.length * (HASH_SIZE + 4)) = rest := by
    rw [show le32 ps.length ++ (pairsSer ps ++ rest)
        = (le32 ps.length ++ pairsSer ps) ++ rest from by simp]
    rw [show 4 + ps.length * (HASH_SIZE + 4) = (le32 ps.length ++ pairsSer ps).length from by
      simp [le32, hplen]
      omega]
    exact List.drop_left _ _
  rw [hdrop4, hdropAll]
  rw [mdReadPairs_ser ps rest m hwf]

theorem mdOpenLoop_entries (es : List (List (ObjectHash × Nat))) :
    ∀ (rest : List Nat) (readSoFar : Nat) (m : List (ObjectHash × Nat)) (fileSize : Nat),
    (∀ e ∈ es, e.length < W32 ∧ ∀ p ∈ e, p.1.bytes.length = HASH_SIZE ∧ p.2 < W32) →
    fileSize = readSoFar + (entriesSer es ++ rest).length →
    mdOpenLoop fileSize (entriesSer es ++ rest) readSoFar m
      = mdOpenLoop fileSize rest (readSoFar + (entriesSer es).length)
          (es.foldl (fun acc e => e.foldl (fun acc2 p => alSet acc2 p.1 p.2) acc) m) := by
  induction es with
  | nil => intro rest readSoFar m fileSize hwf hfs; simp [entriesSer]
  | cons e es2 ih =>
    intro rest readSoFar m fileSize hwf hfs
    have hb : entriesSer (e :: es2) ++ rest = entrySer e ++ (entriesSer es2 ++ rest) := by
      simp [entriesSer]
    have helen : (entrySer e).length = 4 + e.length * (HASH_SIZE + 4) := by
      simp [entrySer, le32,
        pairsSer_length e (fun p hp => ((hwf e (by simp)).2 p hp).1)]
      omega
    rw [hb]
    rw [mdOpenLoop_entry_step e (entriesSer es2 ++ rest) readSoFar m fileSize
      (fun p hp => (hwf e (by simp)).2 p hp) (hwf e (by simp)).1
      (by rw [hfs, hb])]
    rw [ih rest (readSoFar + 4 + e.length * (HASH_SIZE + 4))
      (e.foldl (fun acc2 p => alSet acc2 p.1 p.2) m) fileSize
      (fun e2 he2 => hwf e2 (by simp [he2]))
      (by rw [hfs, hb]
          simp [helen]
          omega)]
    rw [show readSoFar + 4 + e.length * (HASH_SIZE + 4) + (entriesSer es2).length
        = readSoFar + (entriesSer (e :: es2)).length from by
      simp [entriesSer, List.length_append, helen]
      omega]
    rfl

theorem mdCommitLoop_len (counts : List (ObjectHash × Nat)) :
    ∀ m, (mdCommitLoop counts m).2.length = counts.length := by
  induction counts with
  | nil => intro m; simp [mdCommitLoop]
  | cons p rest ih =>
    intro m
    obtain ⟨h, d⟩ := p
    simp [mdCommitLoop, ih]

theorem mdCommitLoop_keys (counts : List (ObjectHash × Nat)) :
    ∀ m, (mdCommitLoop counts m).2.map Prod.fst = counts.map Prod.fst := by
  induction counts with
  | nil => intro m; simp [mdCommitLoop]
  | cons p rest ih =>
    intro m
    obtain ⟨h, d⟩ := p
    simp [mdCommitLoop, ih]

theorem mdCommitLoop_vals (counts : List (ObjectHash × Nat)) :
    ∀ m p, p ∈ (mdCommitLoop counts m).2 → p.2 < W32 := by
  induction counts with
  | nil => intro m p hp; simp [mdCommitLoop] at hp
  | cons q rest ih =>
    intro m p hp
    obtain ⟨h, d⟩ := q
    simp only [mdCommitLoop, List.mem_cons] at hp
    rcases hp with hp | hp
    · rw [hp]
      exact Nat.mod_lt _ (by simp [W32])
    · exact ih _ p hp

theorem mdCommitLoop_map_fold (counts : List (ObjectHash × Nat)) :
    ∀ m, (mdCommitLoop counts m).1
      = (mdCommitLoop counts m).2.foldl (fun acc p => alSet acc p.1 p.2) m := by
  induction counts with
  | nil => intro m; simp [mdCommitLoop]
  | cons q rest ih =>
    intro m
    obtain ⟨h, d⟩ := q
    simp only [mdCommitLoop, List.foldl_cons]
    exact ih _

theorem mdCommits_file (ts : List (List (ObjectHash × Nat))) :
    ∀ st, (mdCommits st ts).file = st.file ++ entriesSer (mdWritten st ts) := by
  induction ts with
  | nil => intro st; simp [mdCommits, mdWritten, entriesSer]
  | cons t ts2 ih =>
    intro st
    by_cases ht : t.length = 0
    · rw [mdCommits, mdWritten]
      rw [if_pos ht]
      rw [show mdCommit st t = st from by rw [mdCommit, if_pos ht]]
      simp [ih st]
    · rw [mdCommits, mdWritten]
      rw [if_neg ht]
      rw [ih (mdCommit st t)]
      rw [show (mdCommit st t).file
          = st.file ++ entrySer (mdCommitLoop t st.refcounts).2 from by
        rw [mdCommit, if_neg ht]
        simp [entrySer, mdCommitLoop_len]]
      simp [entriesSer]

theorem mdCommits_map_fold (ts : List (List (ObjectHash × Nat))) :
    ∀ st, (mdCommits st ts).refcounts
      = (mdWritten st ts).foldl
          (fun acc e => e.foldl (fun acc2 p => alSet acc2 p.1 p.2) acc) st.refcounts := by
  induction ts with
  | nil => intro st; simp [mdCommits, mdWritten]
  | cons t ts2 ih =>
    intro st
    by_cases ht : t.length = 0
    · rw [mdCommits, mdWritten]
      rw [if_pos ht]
      rw [show mdCommit st t = st from by rw [mdCommit, if_pos ht]]
      simp [ih st]
    · rw [mdCommits, mdWritten]
      rw [if_neg ht]
      rw [ih (mdCommit st t)]
      rw [show (mdCommit st t).refcounts
          = (mdCommitLoop t st.refcounts).2.foldl (fun acc p => alSet acc p.1 p.2)
              st.refcounts from by
        rw [mdCommit, if_neg ht]
        simp [mdCommitLoop_map_fold]]
      simp

theorem mdWritten_wf (ts : List (List (ObjectHash × Nat)))
    (hwf : ∀ t ∈ ts, t.length < W32 ∧ ∀ p ∈ t, p.1.bytes.length = HASH_SIZE) :
    ∀ st, ∀ e ∈ mdWritten st ts,
      e.length < W32 ∧ ∀ p ∈ e, p.1.bytes.length = HASH_SIZE ∧ p.2 < W32 := by
  induction ts with
  | nil => intro st e he; simp [mdWritten] at he
  | cons t ts2 ih =>
    intro st e he
    rw [mdWritten] at he
    rcases List.mem_append.mp he with he | he
    · by_cases ht : t.length = 0
      · rw [if_pos ht] at he
        simp at he
      · rw [if_neg ht] at he
        simp at he
        constructor
        · rw [he, mdCommitLoop_len]
          exact (hwf t (by simp)).1
        · intro p hp
          refine ⟨?_, by rw [he] at hp; exact mdCommitLoop_vals t st.refcounts p hp⟩
          have hkey : p.1 ∈ t.map Prod.fst := by
            rw [he] at hp
            rw [← mdCommitLoop_keys t st.refcounts]
            exact List.mem_map_of_mem Prod.fst hp
          obtain ⟨q, hq, hq2⟩ := List.mem_map.mp hkey
          rw [← hq2]
          exact ((hwf t (by simp)).2 q hq)
    · exact ih (fun t2 h2 => hwf t2 (by simp [h2])) (mdCommit st t) e he

theorem option_or_map_getD {α β : Type} (o1 o2 : Option α) (f : α → β) (d : β) :
    ((o1.or o2).map f).getD d = (o1.map f).getD ((o2.map f).getD d) := by
  cases o1 <;> simp

theorem mapGet_alSet (m : List (ObjectHash × Nat)) (k h : ObjectHash) (v : Nat) :
    mapGet (alSet m k v) h = if k = h then v else mapGet m h := by
  by_cases he : k = h
  · rw [if_pos he, ← he, mapGet, alGet?_alSet_self]
    rfl
  · rw [if_neg he, mapGet, alGet?_alSet_ne m k h v (fun h2 => he h2.symm)]
    rfl

theorem mdCommitLoop_get (counts : List (ObjectHash × Nat)) :
    ∀ m h, mapGet (mdCommitLoop counts m).1 h
      = ((((mdCommitLoop counts m).2.reverse.find? (fun p => p.1 == h)).map
          Prod.snd).getD (mapGet m h)) := by
  induction counts with
  | nil => intro m h; simp [mdCommitLoop]
  | cons q rest ih =>
    intro m h
    obtain ⟨k, d⟩ := q
    simp only [mdCommitLoop, List.reverse_cons]
    rw [List.find?_append]
    rw [option_or_map_getD]
    rw [ih (alSet m k ((mapGet m k + d) % W32)) h]
    congr 1
    have hsingle : (List.find? (fun p => p.1 == h) [(k, (mapGet m k + d) % W32)]).map Prod.snd
        = if k = h then some ((mapGet m k + d) % W32) else none := by
      by_cases he : k = h
      · simp [List.find?, he]
      · have hbe : (k == h) = false := beq_eq_false_iff_ne.mpr he
        simp [List.find?, hbe, he]
    rw [hsingle, mapGet_alSet]
    by_cases he : k = h <;> simp [he]

theorem mdCommits_get (ts : List (List (ObjectHash × Nat))) :
    ∀ st h, mapGet (mdCommits st ts).refcounts h
      = ((((mdWritten st ts).flatten.reverse.find? (fun p => p.1 == h)).map
          Prod.snd).getD (mapGet st.refcounts h)) := by
  induction ts with
  | nil => intro st h; simp [mdCommits, mdWritten]
  | cons t ts2 ih =>
    intro st h
    rw [mdCommits, mdWritten]
    rw [ih (mdCommit st t) h]
    by_cases ht : t.length = 0
    · rw [if_pos ht]
      rw [show mdCommit st t = st from by rw [mdCommit, if_pos ht]]
      simp
    · rw [if_neg ht]
      rw [show (mdCommit st t).refcounts = (mdCommitLoop t st.refcounts).1 from by
        rw [mdCommit, if_neg ht]]
      rw [mdCommitLoop_get t st.refcounts h]
      rw [List.flatten_append, List.reverse_append]
      rw [List.find?_append]
      rw [option_or_map_getD]
      simp

/-- Claim C2 (log recovery round-trip): after committing any sequence of
metadata transactions to a fresh log, reopening the resulting file rebuilds
an in-memory refcount map equal to the map at close; and for every hash
occurring in a persisted entry, the in-memory count equals the refcount
written in the last persisted entry (last pair) that contained it. -/
theorem c2_log_recovery (ts : List (List (ObjectHash × Nat)))
    (hwf : ∀ t ∈ ts, t.length < W32 ∧ ∀ p ∈ t, p.1.bytes.length = HASH_SIZE) :
    mdOpen (mdCommits mdInit ts).file = some (mdCommits mdInit ts).refcounts ∧
    (∀ h p, ((mdWritten mdInit ts).flatten.reverse.find? (fun q => q.1 == h)) = some p →
      mapGet (mdCommits mdInit ts).refcounts h = p.2) := by
  constructor
  · rw [mdCommits_file ts mdInit]
    rw [show mdInit.file = [] from rfl, List.nil_append]
    have hwf2 := mdWritten_wf ts hwf mdInit
    have hstep := mdOpenLoop_entries (mdWritten mdInit ts) [] 0 []
      ((entriesSer (mdWritten mdInit ts) ++ []).length) hwf2 (by omega)
    simp only [List.append_nil] at hstep
    rw [mdOpen, hstep, mdOpenLoop]
    rw [mdCommits_map_fold ts mdInit]
    rfl
  · intro h p hfind
    rw [mdCommits_get ts mdInit h, hfind]
    simp

/-- Claim C7 (metadata-log corruption detection): `MetadataLog::open` scans
the file entry by entry; when the remainder after a sequence of well-formed
entries is nonempty and its declared count `num` satisfies
`num * (HASH_SIZE + 4) + readSoFar > file_size` — `readSoFar` counting all
consumed bytes including that entry's count field — it reports corruption
and fails, and on a file that is exactly a sequence of well-formed entries
it reads them until EOF and returns success. -/
theorem c7_open_corruption_detection (pre : List (List (ObjectHash × Nat))) (rest : List Nat)
    (hwf : ∀ e ∈ pre, e.length < W32 ∧ ∀ p ∈ e, p.1.bytes.length = HASH_SIZE ∧ p.2 < W32) :
    (rest = [] → mdOpen (entriesSer pre ++ rest)
        = some (pre.foldl (fun acc e => e.foldl (fun acc2 p => alSet acc2 p.1 p.2) acc) [])) ∧
    (rest ≠ [] →
      le32dec rest * (HASH_SIZE + 4) + ((entriesSer pre).length + 4)
          > (entriesSer pre ++ rest).length →
      mdOpen (entriesSer pre ++ rest) = none) := by
  have hstep := mdOpenLoop_entries pre rest 0 [] ((entriesSer pre ++ rest).length) hwf (by omega)
  constructor
  · intro hr
    subst hr
    simp only [List.append_nil] at hstep ⊢
    rw [mdOpen, hstep, mdOpenLoop]
  · intro hr hbad
    rw [mdOpen, hstep]
    obtain ⟨b, rest2, hb⟩ := List.exists_cons_of_ne_nil hr
    subst hb
    rw [mdOpenLoop]
    have hcond : le32dec (b :: rest2) * (HASH_SIZE + 4) + ((0 + (entriesSer pre).length) + 4)
        > (entriesSer pre ++ b :: rest2).length := by simpa using hbad
    rw [if_pos hcond]

/-- Witness for C2: one transaction incrementing `hashA` once; reopening the
committed file rebuilds the map. -/
theorem c2_log_recovery_witness :
    (∀ t ∈ ([[(hashA, 1)]] : List (List (ObjectHash × Nat))),
        t.length < W32 ∧ ∀ p ∈ t, p.1.bytes.length = HASH_SIZE) ∧
    mdOpen (mdCommits mdInit [[(hashA, 1)]]).file
        = some (mdCommits mdInit [[(hashA, 1)]]).refcounts :=
  ⟨by decide, (c2_log_recovery [[(hashA, 1)]] (by decide)).1⟩

/-- Witness for C7: a file holding a lone stray byte after zero entries is
rejected as corrupt (its count field is short, so the bound check fires). -/
theorem c7_open_corruption_detection_witness :
    (([1] : List Nat) ≠ [] ∧
     le32dec [1] * (HASH_SIZE + 4) + ((entriesSer []).length + 4)
        > (entriesSer [] ++ [1]).length) ∧
    mdOpen (entriesSer [] ++ [1]) = none :=
  ⟨⟨by decide, by decide⟩,
    (c7_open_corruption_detection [] [1] (by decide)).2 (by decide) (by decide)⟩
